import Mathlib

/-!
# Sum of Euler totients over a range: sequential core and the MPI decomposition

A shallow embedding of `TotientRange_mpi2.c` (the functions `hcf`, `relprime`, `euler`,
`sumTotient` are textually the same in `TotientRange_mpi1.c` and, up to the operation
counter, in `TotientRange.c`), of the instrumented functions of `TotientRange.c`
(namespace `Seq`), of the thread-based functions of `TotientRange_omp.c` (namespace `Omp`)
and of the argument check of the `main` functions.

Conventions of the embedding:

* a C `long` is a mathematical integer (`Int`); the sequential functions `hcf`, `relprime`,
  `euler` and `sumTotient` compute over the mathematical integers, and where the width of
  a `long` or of an `int` decides a property the arithmetic is wrapped to 64 bits
  (`wrapLong`, in the master's bounds and in the fuelled loop of `sumTotient`) or checked
  against the largest value (the `Checked` functions);
* C `%` and `/` on `long` truncate towards zero: `Int.tmod` and `Int.tdiv`;
* a `while`/`for` loop is a recursive function over the loop variables, whose recursive
  call is taken exactly when the loop guard holds;
* a C truth value is an `int`, `1` for true and `0` for false, and `if (e)` tests `e ≠ 0`;
* `MPI_Scatter` hands process `id` the cells `2*id` and `2*id+1` of the root's buffer, and
  `MPI_Reduce` with `MPI_SUM` adds the contributions of the processes `0 .. p-1`.
-/

namespace TotientRange

/-! ## Definitions -/

/-- Highest common factor, the loop `while (y != 0) { t = x % y; x = y; y = t; } return x;`. -/
@[semireducible] def hcf (x y : Int) : Int :=
  if y ≠ 0 then hcf y (x.tmod y) else x
termination_by y.natAbs
decreasing_by
  rename_i hy
  have hmod : (x.tmod y).natAbs = x.natAbs % y.natAbs := by
    rcases x with x | x <;> rcases y with y | y <;>
      simp [Int.tmod, Int.natAbs_neg, Int.natAbs_ofNat, Int.natAbs_negSucc] <;> rfl
  rw [hmod]
  exact Nat.mod_lt _ (Int.natAbs_pos.mpr hy)

/-- The test `return hcf(x, y) == 1;`, a C `int` that is `1` or `0`. -/
def relprime (x y : Int) : Int :=
  if hcf x y = 1 then 1 else 0

/-- The loop `for (i = 1; i < n; i++) if (relprime(n, i)) length++;` of `euler`, entered
with the current values of `i` and `length`. -/
@[semireducible] def eulerLoop (n i length : Int) : Int :=
  if i < n then
    eulerLoop n (i + 1) (if relprime n i ≠ 0 then length + 1 else length)
  else length
termination_by (n - i).toNat
decreasing_by omega

/-- The function `euler`: `length = 0`, then the loop from `i = 1`, then `return length`. -/
def euler (n : Int) : Int :=
  eulerLoop n 1 0

/-- The loop `for (i = lower; i <= upper; i++) sum = sum + euler(i);` of `sumTotient`,
entered with the current values of `i` and `sum`. -/
@[semireducible] def sumTotientLoop (upper i sum : Int) : Int :=
  if i ≤ upper then sumTotientLoop upper (i + 1) (sum + euler i) else sum
termination_by (upper + 1 - i).toNat
decreasing_by omega

/-- The function `sumTotient`: `sum = 0`, then the loop from `i = lower`. -/
def sumTotient (lower upper : Int) : Int :=
  sumTotientLoop upper lower 0

/-- The largest value of a 64-bit C `long`. -/
def LONG_MAX : Int := 2 ^ 63 - 1

/-- The smallest value of a 64-bit C `long`. -/
def LONG_MIN : Int := -(2 ^ 63)

/-- The `long` that a sum or difference of two `long`s leaves in a 64-bit two's-complement
register: the mathematical result reduced modulo `2^64` into `LONG_MIN .. LONG_MAX`. -/
def wrapLong (x : Int) : Int :=
  (x + 9223372036854775808) % 18446744073709551616 - 9223372036854775808

/-- The master's loop `for (int i=1; i<2*p; i++)` of `main`: an odd cell (an upper bound)
is the previous cell plus `p_range`, an even cell (a lower bound) the previous cell plus
one, both additions on `long`. Entered with the current `i` and the current contents of
`all_bounds`. -/
@[semireducible] def boundsLoop (p : Nat) (p_range : Int) (i : Nat) (all_bounds : Array Int) :
    Array Int :=
  if i < 2 * p then
    boundsLoop p p_range (i + 1)
      (if i % 2 ≠ 0 then all_bounds.setD i (wrapLong (all_bounds.getD (i - 1) 0 + p_range))
       else all_bounds.setD i (wrapLong (all_bounds.getD (i - 1) 0 + 1)))
  else all_bounds
termination_by 2 * p - i
decreasing_by omega

/-- The bounds handling of the master in `main`, for `p` processes: the buffer of `2*p`
cells (fresh cells read as `0`), `p_range = (upper-lower)/p` with the subtraction on
`long`, `all_bounds[0] = lower`, the loop, and finally `all_bounds[2*p-1] = upper`. -/
def all_bounds (lower upper : Int) (p : Nat) : Array Int :=
  let buf : Array Int := mkArray (2 * p) 0
  let p_range : Int := (wrapLong (upper - lower)).tdiv (p : Int)
  let buf := buf.setD 0 lower
  let buf := boundsLoop p p_range 1 buf
  buf.setD (2 * p - 1) upper

/-- The pair `p_bounds` that `MPI_Scatter` (two cells per process, root `0`) delivers to
process `id`. -/
def p_bounds (lower upper : Int) (p id : Nat) : Int × Int :=
  ((all_bounds lower upper p).getD (2 * id) 0, (all_bounds lower upper p).getD (2 * id + 1) 0)

/-- The value `p_sum = sumTotient(p_bounds[0], p_bounds[1])` computed by process `id`. -/
def p_sum (lower upper : Int) (p id : Nat) : Int :=
  sumTotient (p_bounds lower upper p id).1 (p_bounds lower upper p id).2

/-- The value `result` that `MPI_Reduce` with `MPI_SUM` leaves at the root: the sum of
`p_sum` over the processes `0 .. p-1`. -/
def result (lower upper : Int) (p : Nat) : Int :=
  ((List.range p).map (p_sum lower upper p)).sum

/-- The set of integers of the closed sub-range `[a, b]` held in a pair of bounds. -/
def subRange (b : Int × Int) : Finset Int :=
  Finset.Icc b.1 b.2

/-- The sub-range `i > 0` of the equal-width policy in the words of the specification:
with `width = floor((upper - lower) / k)`, the pair
`[lower + i*width + 1, lower + (i+1)*width]`. -/
def policySubRange (lower upper : Int) (k i : Nat) : Int × Int :=
  let width : Int := (upper - lower) / (k : Int)
  (lower + (i : Int) * width + 1, lower + ((i : Int) + 1) * width)

/-- No `long` overflows in the bounds handling of the master: the difference
`upper - lower` and every cell that the loop computes, `lower + j*(w+1)` and
`lower + j*(w+1) + w` for `j < p` with `w = (upper - lower) / p`, lie between `LONG_MIN`
and `LONG_MAX`. -/
def BoundsFit (lower upper : Int) (p : Nat) : Prop :=
  LONG_MIN ≤ upper - lower ∧ upper - lower ≤ LONG_MAX ∧
  ∀ j : Nat, j < p →
    LONG_MIN ≤ lower + (j : Int) * ((upper - lower).tdiv (p : Int) + 1) ∧
    lower + (j : Int) * ((upper - lower).tdiv (p : Int) + 1) ≤ LONG_MAX ∧
    LONG_MIN ≤ lower + (j : Int) * ((upper - lower).tdiv (p : Int) + 1)
      + (upper - lower).tdiv (p : Int) ∧
    lower + (j : Int) * ((upper - lower).tdiv (p : Int) + 1)
      + (upper - lower).tdiv (p : Int) ≤ LONG_MAX

instance (lower upper : Int) (p : Nat) : Decidable (BoundsFit lower upper p) := by
  unfold BoundsFit
  infer_instance

/-! ### The instrumented sequential variant (`TotientRange.c`)

The global `long op_number` is threaded through every function as an explicit state: each
function takes the value of the counter on entry and returns its result paired with the
value of the counter on exit. -/

namespace Seq

/-- The instrumented `hcf`: each iteration of the loop executes `op_number++` twice. -/
@[semireducible] def hcf (x y op_number : Int) : Int × Int :=
  if y ≠ 0 then hcf y (x.tmod y) (op_number + 1 + 1) else (x, op_number)
termination_by y.natAbs
decreasing_by
  rename_i hy
  have hmod : (x.tmod y).natAbs = x.natAbs % y.natAbs := by
    rcases x with x | x <;> rcases y with y | y <;>
      simp [Int.tmod, Int.natAbs_neg, Int.natAbs_ofNat, Int.natAbs_negSucc] <;> rfl
  rw [hmod]
  exact Nat.mod_lt _ (Int.natAbs_pos.mpr hy)

/-- The instrumented `relprime`: `op_number++; return hcf(x, y) == 1;`. -/
def relprime (x y op_number : Int) : Int × Int :=
  let r := hcf x y (op_number + 1)
  (if r.1 = 1 then 1 else 0, r.2)

/-- The function `relprime2`:
`if ((x%2==0) && (y%2==0)) return 0; else return hcf(x, y) == 1;`. -/
def relprime2 (x y op_number : Int) : Int × Int :=
  if x.tmod 2 = 0 ∧ y.tmod 2 = 0 then (0, op_number)
  else
    let r := hcf x y op_number
    (if r.1 = 1 then 1 else 0, r.2)

/-- The loop of the instrumented `euler`: `op_number++` on each iteration, and
`length++; op_number++;` when `relprime(n, i)` holds. -/
@[semireducible] def eulerLoop (n i length op_number : Int) : Int × Int :=
  if i < n then
    if (relprime n i (op_number + 1)).1 ≠ 0 then
      eulerLoop n (i + 1) (length + 1) ((relprime n i (op_number + 1)).2 + 1)
    else
      eulerLoop n (i + 1) length (relprime n i (op_number + 1)).2
  else (length, op_number)
termination_by (n - i).toNat
decreasing_by all_goals omega

/-- The instrumented `euler`. -/
def euler (n op_number : Int) : Int × Int :=
  eulerLoop n 1 0 op_number

/-- The loop of the instrumented `sumTotient`: `op_number++; sum = sum + euler(i);`. -/
@[semireducible] def sumTotientLoop (upper i sum op_number : Int) : Int × Int :=
  if i ≤ upper then
    sumTotientLoop upper (i + 1) (sum + (euler i (op_number + 1)).1) (euler i (op_number + 1)).2
  else (sum, op_number)
termination_by (upper + 1 - i).toNat
decreasing_by omega

/-- The instrumented `sumTotient`. -/
def sumTotient (lower upper op_number : Int) : Int × Int :=
  sumTotientLoop upper lower 0 op_number

end Seq


/-! ### Checked and fuelled readings of the sequential functions -/

/-- The C remainder `x % y` as a fallible operation: undefined (`none`) when `y = 0`. -/
def checkedRem (x y : Int) : Option Int :=
  if y = 0 then none else some (x.tmod y)

/-- The function `hcf` with every `x % y` taken through `checkedRem`: `none` would be a
division by zero. -/
@[semireducible] def hcfChecked (x y : Int) : Option Int :=
  if y ≠ 0 then
    match checkedRem x y with
    | none => none
    | some _ => hcfChecked y (x.tmod y)
  else some x
termination_by y.natAbs
decreasing_by
  rename_i hy
  have hmod : (x.tmod y).natAbs = x.natAbs % y.natAbs := by
    rcases x with x | x <;> rcases y with y | y <;>
      simp [Int.tmod, Int.natAbs_neg, Int.natAbs_ofNat, Int.natAbs_negSucc] <;> rfl
  rw [hmod]
  exact Nat.mod_lt _ (Int.natAbs_pos.mpr hy)

/-- The pairs `(x, y)` for which `hcf` evaluates `x % y`, in order. -/
@[semireducible] def hcfRems (x y : Int) : List (Int × Int) :=
  if y ≠ 0 then (x, y) :: hcfRems y (x.tmod y) else []
termination_by y.natAbs
decreasing_by
  rename_i hy
  have hmod : (x.tmod y).natAbs = x.natAbs % y.natAbs := by
    rcases x with x | x <;> rcases y with y | y <;>
      simp [Int.tmod, Int.natAbs_neg, Int.natAbs_ofNat, Int.natAbs_negSucc] <;> rfl
  rw [hmod]
  exact Nat.mod_lt _ (Int.natAbs_pos.mpr hy)

/-- The loop of `euler`, recording the argument pairs of the calls `relprime(n, i)` it
makes instead of counting. -/
@[semireducible] def eulerCallsLoop (n i : Int) (calls : List (Int × Int)) : List (Int × Int) :=
  if i < n then eulerCallsLoop n (i + 1) (calls ++ [(n, i)]) else calls
termination_by (n - i).toNat
decreasing_by omega

/-- The calls `relprime(n, i)` made by `euler n`, in order. -/
def eulerCalls (n : Int) : List (Int × Int) :=
  eulerCallsLoop n 1 []

/-- The loop of `hcf` run for at most `fuel` iterations: `none` when the fuel runs out
before the guard `y != 0` fails. -/
def hcfFuel : Nat → Int → Int → Option Int
  | 0, _, _ => none
  | fuel + 1, x, y => if y ≠ 0 then hcfFuel fuel y (x.tmod y) else some x

/-- The loop of `euler` run for at most `fuel` tests of its guard. -/
def eulerLoopFuel : Nat → Int → Int → Int → Option Int
  | 0, _, _, _ => none
  | fuel + 1, n, i, length =>
    if i < n then
      eulerLoopFuel fuel n (i + 1) (if relprime n i ≠ 0 then length + 1 else length)
    else some length

/-- The loop of `sumTotient` run for at most `fuel` tests of its guard, with the `long`
variables `i` and `sum` wrapped to 64 bits by `i++` and `sum = sum + euler(i)`. -/
def sumTotientLoopFuel : Nat → Int → Int → Int → Option Int
  | 0, _, _, _ => none
  | fuel + 1, upper, i, sum =>
    if i ≤ upper then
      sumTotientLoopFuel fuel upper (wrapLong (i + 1)) (wrapLong (sum + euler i))
    else some sum

/-- The loop of `euler` with the increments `length++` and `i++` checked against
`LONG_MAX`: `none` would be a signed overflow. -/
@[semireducible] def eulerLoopChecked (n i length : Int) : Option Int :=
  if i < n then
    if (relprime n i ≠ 0 ∧ LONG_MAX < length + 1) ∨ LONG_MAX < i + 1 then none
    else eulerLoopChecked n (i + 1) (if relprime n i ≠ 0 then length + 1 else length)
  else some length
termination_by (n - i).toNat
decreasing_by omega

/-- The function `euler` with checked increments. -/
def eulerChecked (n : Int) : Option Int :=
  eulerLoopChecked n 1 0

/-- How a run of `sumTotient` with checked `long` arithmetic ends: it returns a value, or
the addition `sum + euler(i)` overflows, or the increment `i++` overflows. -/
inductive Run where
  | returned (sum : Int) : Run
  | accumulationOverflow : Run
  | indexOverflow : Run
deriving DecidableEq

/-- The loop of `sumTotient` with the addition `sum + euler(i)` and the increment `i++`
checked against `LONG_MAX`, in the order in which the loop performs them. -/
@[semireducible] def sumTotientLoopChecked (upper i sum : Int) : Run :=
  if i ≤ upper then
    if LONG_MAX < sum + euler i then Run.accumulationOverflow
    else if LONG_MAX < i + 1 then Run.indexOverflow
    else sumTotientLoopChecked upper (i + 1) (sum + euler i)
  else Run.returned sum
termination_by (upper + 1 - i).toNat
decreasing_by omega

/-- The function `sumTotient` with checked `long` arithmetic. -/
def sumTotientChecked (lower upper : Int) : Run :=
  sumTotientLoopChecked upper lower 0


/-! ### The thread-based variant (`TotientRange_omp.c`)

A work-sharing loop (`#pragma omp for` inside `#pragma omp parallel`) runs every iteration
of its iteration space exactly once, on the thread that the schedule assigns to it: the
schedule is a function `owner` from iterations to thread numbers, and thread `id` runs the
iterations it owns. Every update of the shared accumulator is a `#pragma omp atomic`
addition, so its final value is the sum over the threads `0 .. num_threads-1` of what
each thread adds. The `int` loop variable receives `lower` by conversion from `long`.
The functions `euler` and `sumTotient` below give the values over the mathematical
iteration space; `eulerChecked` and `sumTotientChecked` follow the 32-bit `int` loop
variable and have no result when its increment `i++` would pass `INT_MAX`. -/

namespace Omp

/-- Conversion of a `long` to a 32-bit `int` (wrapping), as in `i = lower`. -/
def toInt (x : Int) : Int :=
  (x + 2147483648) % 4294967296 - 2147483648

/-- The iteration space of `for (i = a; i < b; i++)`, in increasing order. -/
@[semireducible] def iterations (a b : Int) : List Int :=
  if a < b then a :: iterations (a + 1) b else []
termination_by (b - a).toNat
decreasing_by omega

/-- The iterations of `space` that the schedule `owner` gives to thread `id`. -/
def chunk (owner : Int → Nat) (id : Nat) (space : List Int) : List Int :=
  space.filter (fun i => owner i = id)

/-- The value of `euler(n, num_threads)` over the mathematical iteration space of
`for (i = 1; i < n; i++)`: thread `id` performs `length++` for each of its iterations
with `relprime(n, i)`. -/
def euler (n : Int) (num_threads : Nat) (owner : Int → Nat) : Int :=
  ((List.range num_threads).map (fun id =>
    (chunk owner id (iterations 1 n)).foldl
      (fun length i => if relprime n i ≠ 0 then length + 1 else length) 0)).sum

/-- The value of `sumTotient(lower, upper, num_threads)` over the mathematical iteration
space of `for (i = lower; i <= upper; i++)`: thread `id` performs
`sum += euler(i, num_threads)` for each of its iterations; `inner i` is the schedule of
the loop inside the call `euler(i, num_threads)`. -/
def sumTotient (lower upper : Int) (num_threads : Nat) (owner : Int → Nat)
    (inner : Int → Int → Nat) : Int :=
  ((List.range num_threads).map (fun id =>
    (chunk owner id (iterations (toInt lower) (upper + 1))).foldl
      (fun sum i => sum + euler i num_threads (inner i)) 0)).sum

/-- The largest value of a 32-bit C `int`. -/
def INT_MAX : Int := 2147483647

/-- The iteration space of `for (i = a; i < b; i++)` with an `int` variable `i` that
starts at the `int` value `a`: `none` when an increment `i++` would pass `INT_MAX`, after
which the guard can no longer fail. -/
@[semireducible] def iterationsChecked (a b : Int) : Option (List Int) :=
  if a < b then
    if INT_MAX < a + 1 then none
    else (iterationsChecked (a + 1) b).map (fun rest => a :: rest)
  else some []
termination_by (b - a).toNat
decreasing_by omega

/-- The size of the team that `omp_set_num_threads(num_threads)` requests for the next
parallel region: `num_threads` threads, and one thread when the request is not
positive. -/
def teamSize (num_threads : Int) : Nat :=
  if 0 < num_threads then num_threads.toNat else 1

/-- The function `euler(n, num_threads)` with the `int` loop variable followed: over
`for (i = 1; i < n; i++)`, thread `id` performs `length++` for each of its iterations
with `relprime(n, i)`. -/
def eulerChecked (n : Int) (num_threads : Int) (owner : Int → Nat) : Option Int :=
  (iterationsChecked 1 n).map (fun space =>
    ((List.range (teamSize num_threads)).map (fun id =>
      (chunk owner id space).foldl
        (fun length i => if relprime n i ≠ 0 then length + 1 else length) 0)).sum)

/-- The function `sumTotient(lower, upper, num_threads)` with the `int` loop variable
followed: over `for (i = lower; i <= upper; i++)`, thread `id` performs
`sum += euler(i, num_threads)` for each of its iterations, and there is a result only
when every one of these calls has one. -/
def sumTotientChecked (lower upper : Int) (num_threads : Int) (owner : Int → Nat)
    (inner : Int → Int → Nat) : Option Int :=
  (iterationsChecked (toInt lower) (upper + 1)).bind (fun space =>
    ((List.range (teamSize num_threads)).mapM (fun id =>
      (chunk owner id space).foldlM
        (fun sum i => (eulerChecked i num_threads (inner i)).map (fun e => sum + e)) 0)).map
      List.sum)

end Omp

/-! ### The `main` functions

The values `lower`, `upper` (and `num_threads`) are what `sscanf` leaves in the variables of
those names; times are not modelled. -/

namespace Seq

end Seq

namespace Mpi1

end Mpi1

namespace Omp

end Omp


/-! ## The coprimality test -/

theorem hcf_eq (x y : Int) : hcf x y = if y ≠ 0 then hcf y (x.tmod y) else x := by
  rw [hcf]

theorem natAbs_tmod (x y : Int) : (x.tmod y).natAbs = x.natAbs % y.natAbs := by
  rcases x with x | x <;> rcases y with y | y <;>
    simp [Int.tmod, Int.natAbs_neg, Int.natAbs_ofNat, Int.natAbs_negSucc] <;> rfl

theorem natAbs_hcf (x y : Int) : (hcf x y).natAbs = Int.gcd x y := by
  induction x, y using hcf.induct with
  | case1 x y hy ih =>
    rw [hcf_eq, if_pos hy, ih, Int.gcd_def, Int.gcd_def, natAbs_tmod, Nat.gcd_comm x.natAbs,
      Nat.gcd_rec y.natAbs x.natAbs, Nat.gcd_comm]
  | case2 x y hy =>
    have h0 : y = 0 := not_not.mp hy
    rw [hcf_eq, if_neg hy, h0, Int.gcd_def]
    simp

theorem hcf_nonneg (x y : Int) (hx : 0 ≤ x) (hy : 0 ≤ y) : 0 ≤ hcf x y := by
  induction x, y using hcf.induct with
  | case1 x y h ih =>
    rw [hcf_eq, if_pos h]
    exact ih hy (Int.tmod_nonneg y hx)
  | case2 x y h =>
    rw [hcf_eq, if_neg h]
    exact hx

theorem hcf_eq_gcd (x y : Int) (hx : 0 ≤ x) (hy : 0 ≤ y) : hcf x y = (Int.gcd x y : Int) := by
  rw [← natAbs_hcf, Int.natAbs_of_nonneg (hcf_nonneg x y hx hy)]

theorem relprime_ne_zero_iff (x y : Int) : relprime x y ≠ 0 ↔ hcf x y = 1 := by
  unfold relprime
  split <;> simp_all

/-- C3: for non-negative `x` and `y`, `hcf x y` is `gcd x y`, and `relprime x y` is true
(a non-zero `int`, in fact `1`) exactly when `gcd x y = 1`. -/
theorem hcf_relprime_correct (x y : Int) (hx : 0 ≤ x) (hy : 0 ≤ y) :
    hcf x y = (Int.gcd x y : Int) ∧
    (relprime x y ≠ 0 ↔ Int.gcd x y = 1) ∧
    (relprime x y = 1 ↔ Int.gcd x y = 1) := by
  have hg := hcf_eq_gcd x y hx hy
  refine ⟨hg, ?_, ?_⟩
  · rw [relprime_ne_zero_iff, hg]
    exact_mod_cast Iff.rfl
  · unfold relprime
    rw [hg]
    split
    · rename_i h
      simp only [true_iff]
      exact_mod_cast h
    · rename_i h
      constructor
      · intro h1
        exact absurd h1 (by decide)
      · intro h1
        exact absurd (by exact_mod_cast h1) h

/-! ## The totient evaluator -/

theorem eulerLoop_eq (n i length : Int) :
    eulerLoop n i length =
      if i < n then eulerLoop n (i + 1) (if relprime n i ≠ 0 then length + 1 else length)
      else length := by
  rw [eulerLoop]

theorem Ico_eq_insert (i n : Int) (h : i < n) :
    Finset.Ico i n = insert i (Finset.Ico (i + 1) n) := by
  ext j
  simp only [Finset.mem_Ico, Finset.mem_insert]
  omega

theorem eulerLoop_count (n i length : Int) :
    eulerLoop n i length =
      length + (((Finset.Ico i n).filter (fun j => relprime n j ≠ 0)).card : Int) := by
  induction i, length using eulerLoop.induct n with
  | case1 i length h ih =>
    simp only [dite_eq_ite] at ih
    rw [eulerLoop_eq, if_pos h, ih, Ico_eq_insert i n h, Finset.filter_insert]
    by_cases hr : relprime n i ≠ 0
    · rw [if_pos hr, if_pos hr, Finset.card_insert_of_not_mem (by simp)]
      push_cast
      ring
    · rw [if_neg hr, if_neg hr]
  | case2 i length h =>
    rw [eulerLoop_eq, if_neg h, Finset.Ico_eq_empty h]
    simp

theorem euler_eq_card_relprime (n : Int) :
    euler n = (((Finset.Ico 1 n).filter (fun j => relprime n j ≠ 0)).card : Int) := by
  rw [euler, eulerLoop_count, zero_add]

theorem euler_eq_card_gcd (n : Int) (h : 1 ≤ n) :
    euler n = (((Finset.Icc 1 (n - 1)).filter (fun i => Int.gcd n i = 1)).card : Int) := by
  rw [euler_eq_card_relprime]
  have hset : Finset.Ico 1 n = Finset.Icc 1 (n - 1) := by
    ext j
    simp only [Finset.mem_Ico, Finset.mem_Icc]
    omega
  rw [hset]
  congr 2
  apply Finset.filter_congr
  intro j hj
  rw [Finset.mem_Icc] at hj
  rw [relprime_ne_zero_iff, hcf_eq_gcd n j (by omega) (by omega)]
  exact_mod_cast Iff.rfl

theorem card_gcd_eq_totient (m : Nat) (h : 2 ≤ m) :
    ((Finset.Icc (1 : Int) ((m : Int) - 1)).filter (fun i => Int.gcd (m : Int) i = 1)).card =
      Nat.totient m := by
  rw [Nat.totient_eq_card_coprime]
  symm
  refine Finset.card_bij (fun a _ => (a : Int)) ?_ ?_ ?_
  · intro a ha
    dsimp only
    rw [Finset.mem_filter, Finset.mem_range] at ha
    rw [Finset.mem_filter, Finset.mem_Icc]
    have ha0 : a ≠ 0 := by
      rintro rfl
      have h1 : m = 1 := by simpa using ha.2
      omega
    refine ⟨⟨by omega, by omega⟩, ?_⟩
    rw [Int.gcd_natCast_natCast]
    exact ha.2
  · intro a _ b _ hab
    dsimp only at hab
    exact_mod_cast hab
  · intro b hb
    rw [Finset.mem_filter, Finset.mem_Icc] at hb
    have hcast : ((b.toNat : Nat) : Int) = b := by omega
    refine ⟨b.toNat, ?_, hcast⟩
    rw [Finset.mem_filter, Finset.mem_range]
    refine ⟨by omega, ?_⟩
    have hb2 := hb.2
    rw [← hcast, Int.gcd_natCast_natCast] at hb2
    exact hb2

/-- C1: for every `n ≥ 1`, `euler n` is the number of `i` with `1 ≤ i ≤ n - 1` and
`gcd n i = 1`; in particular `euler 1 = 0`, the interval `[1, 0]` being empty. -/
theorem euler_counts_coprimes (n : Int) (h : 1 ≤ n) :
    euler n = (((Finset.Icc 1 (n - 1)).filter (fun i => Int.gcd n i = 1)).card : Int) ∧
    Finset.Icc (1 : Int) (1 - 1) = ∅ ∧ euler 1 = 0 :=
  ⟨euler_eq_card_gcd n h, by decide, by decide⟩

/-- Witness of C1 at `n = 30`. -/
theorem euler_counts_coprimes_witness :
    (1 : Int) ≤ 30 ∧
    (euler 30 = (((Finset.Icc 1 ((30 : Int) - 1)).filter
        (fun i => Int.gcd (30 : Int) i = 1)).card : Int) ∧
      Finset.Icc (1 : Int) (1 - 1) = ∅ ∧ euler 1 = 0) :=
  ⟨by decide, euler_counts_coprimes 30 (by decide)⟩

/-- C2: for every `n ≥ 2`, `euler n` is the standard Euler totient `φ n`; on `n ≥ 1` the
two differ only at `n = 1`, where `euler 1 = 0` and `φ 1 = 1`. -/
theorem euler_eq_totient (n : Nat) (h : 1 ≤ n) :
    (2 ≤ n → euler (n : Int) = (Nat.totient n : Int)) ∧
    (euler (n : Int) ≠ (Nat.totient n : Int) ↔ n = 1) ∧
    euler 1 = 0 ∧ Nat.totient 1 = 1 := by
  have h2 : 2 ≤ n → euler (n : Int) = (Nat.totient n : Int) := by
    intro hn
    rw [euler_eq_card_gcd (n : Int) (by omega), card_gcd_eq_totient n hn]
  refine ⟨h2, ?_, by decide, by simp⟩
  constructor
  · intro hne
    by_contra h1
    exact hne (h2 (by omega))
  · rintro rfl
    simp only [Nat.totient_one]
    decide

/-- Witness of C2 at `n = 9`. -/
theorem euler_eq_totient_witness :
    1 ≤ 9 ∧ euler ((9 : Nat) : Int) = (Nat.totient 9 : Int) :=
  ⟨by decide, (euler_eq_totient 9 (by decide)).1 (by decide)⟩

/-- Witness of C3 at `x = 30`, `y = 12`. -/
theorem hcf_relprime_correct_witness :
    (0 : Int) ≤ 30 ∧ (0 : Int) ≤ 12 ∧ hcf 30 12 = (Int.gcd 30 12 : Int) ∧
    (relprime 30 12 ≠ 0 ↔ Int.gcd 30 12 = 1) ∧ (relprime 30 12 = 1 ↔ Int.gcd 30 12 = 1) :=
  ⟨by decide, by decide, hcf_relprime_correct 30 12 (by decide) (by decide)⟩

/-- C4: the concrete totient values `euler 1 = 0`, `euler 2 = 1`, `euler 6 = 2`,
`euler 9 = 6` and `euler 30 = 8`. -/
theorem euler_values :
    euler 1 = 0 ∧ euler 2 = 1 ∧ euler 6 = 2 ∧ euler 9 = 6 ∧ euler 30 = 8 := by
  decide

/-! ## The worker: summing over a range -/

theorem sumTotientLoop_eq (upper i sum : Int) :
    sumTotientLoop upper i sum =
      if i ≤ upper then sumTotientLoop upper (i + 1) (sum + euler i) else sum := by
  rw [sumTotientLoop]

theorem Icc_eq_insert (i upper : Int) (h : i ≤ upper) :
    Finset.Icc i upper = insert i (Finset.Icc (i + 1) upper) := by
  ext j
  simp only [Finset.mem_Icc, Finset.mem_insert]
  omega

theorem sumTotientLoop_sum (upper i sum : Int) :
    sumTotientLoop upper i sum = sum + ∑ n in Finset.Icc i upper, euler n := by
  induction i, sum using sumTotientLoop.induct upper with
  | case1 i sum h ih =>
    rw [sumTotientLoop_eq, if_pos h, ih, Icc_eq_insert i upper h,
      Finset.sum_insert (by simp)]
    ring
  | case2 i sum h =>
    rw [sumTotientLoop_eq, if_neg h, Finset.Icc_eq_empty h]
    simp

theorem sumTotient_eq_sum (lower upper : Int) :
    sumTotient lower upper = ∑ n in Finset.Icc lower upper, euler n := by
  rw [sumTotient, sumTotientLoop_sum, zero_add]

/-! ## The master's bounds and the reduction -/

theorem boundsLoop_eq (p : Nat) (p_range : Int) (i : Nat) (a : Array Int) :
    boundsLoop p p_range i a =
      if i < 2 * p then
        boundsLoop p p_range (i + 1)
          (if i % 2 ≠ 0 then a.setD i (wrapLong (a.getD (i - 1) 0 + p_range))
           else a.setD i (wrapLong (a.getD (i - 1) 0 + 1)))
      else a := by
  rw [boundsLoop]

theorem LONG_MAX_eq : LONG_MAX = 9223372036854775807 := by
  norm_num [LONG_MAX]

theorem LONG_MIN_eq : LONG_MIN = -9223372036854775808 := by
  norm_num [LONG_MIN]

theorem wrapLong_eq (x : Int) (h1 : LONG_MIN ≤ x) (h2 : x ≤ LONG_MAX) : wrapLong x = x := by
  rw [LONG_MIN_eq] at h1
  rw [LONG_MAX_eq] at h2
  unfold wrapLong
  omega

theorem wrapLong_le (x : Int) : wrapLong x ≤ LONG_MAX := by
  rw [LONG_MAX_eq]
  unfold wrapLong
  omega

theorem wrapLong_ge (x : Int) : LONG_MIN ≤ wrapLong x := by
  rw [LONG_MIN_eq]
  unfold wrapLong
  omega

theorem wrapLong_add (a b : Int) : wrapLong (wrapLong a + b) = wrapLong (a + b) := by
  unfold wrapLong
  omega

theorem getD_setD (a : Array Int) (i j : Nat) (v : Int) :
    (a.setD i v).getD j 0 = if j = i ∧ i < a.size then v else a.getD j 0 := by
  simp only [Array.getD_eq_get?]
  by_cases hi : i < a.size
  · simp only [Array.setD, hi, dite_true, and_true]
    rw [Array.get?_set]
    by_cases hji : j = i
    · subst hji
      simp
    · have hij : ¬ i = j := fun h => hji h.symm
      simp [hji, hij]
  · simp [Array.setD, hi]

/-- Closed form of cell `j` of the buffer after the master's loop, when no cell
overflows: cell `2*k` is `lower + k*(w+1)` and cell `2*k+1` is `lower + k*(w+1) + w`. -/
theorem boundsLoop_spec (p : Nat) (w lower : Int) (i : Nat) (a : Array Int)
    (hfit : ∀ j, j < 2 * p →
      LONG_MIN ≤ lower + ((j / 2 : Nat) : Int) * (w + 1) + ((j % 2 : Nat) : Int) * w ∧
      lower + ((j / 2 : Nat) : Int) * (w + 1) + ((j % 2 : Nat) : Int) * w ≤ LONG_MAX)
    (hi : 1 ≤ i) (hle : i ≤ 2 * p) (hsz : a.size = 2 * p)
    (hinv : ∀ j, j < i → a.getD j 0 = lower + ((j / 2 : Nat) : Int) * (w + 1) + ((j % 2 : Nat) : Int) * w) :
    (boundsLoop p w i a).size = 2 * p ∧
    ∀ j, j < 2 * p →
      (boundsLoop p w i a).getD j 0 =
        lower + ((j / 2 : Nat) : Int) * (w + 1) + ((j % 2 : Nat) : Int) * w := by
  induction i, a using boundsLoop.induct p w with
  | case1 i a h ih =>
    simp only [dite_eq_ite] at ih
    rw [boundsLoop_eq, if_pos h]
    apply ih (by omega) (by omega)
    · split <;> simp [hsz]
    · intro j hj
      have hprev := hinv (i - 1) (by omega)
      have hcell := hfit i h
      by_cases hodd : i % 2 ≠ 0
      · rw [if_pos hodd, getD_setD]
        by_cases hji : j = i
        · have h1 : (i - 1) / 2 = i / 2 := by omega
          have h2 : (i - 1) % 2 = 0 := by omega
          have h3 : i % 2 = 1 := by omega
          have hval : a.getD (i - 1) 0 + w =
              lower + ((i / 2 : Nat) : Int) * (w + 1) + ((i % 2 : Nat) : Int) * w := by
            rw [hprev, h1, h2, h3]
            push_cast
            ring
          rw [if_pos ⟨hji, by omega⟩, hval, hji, wrapLong_eq _ hcell.1 hcell.2]
        · rw [if_neg (fun hc => hji hc.1)]
          exact hinv j (by omega)
      · rw [if_neg hodd, getD_setD]
        by_cases hji : j = i
        · have h1 : i / 2 = (i - 1) / 2 + 1 := by omega
          have h2 : (i - 1) % 2 = 1 := by omega
          have h3 : i % 2 = 0 := by omega
          have hval : a.getD (i - 1) 0 + 1 =
              lower + ((i / 2 : Nat) : Int) * (w + 1) + ((i % 2 : Nat) : Int) * w := by
            rw [hprev, h1, h2, h3]
            push_cast
            ring
          rw [if_pos ⟨hji, by omega⟩, hval, hji, wrapLong_eq _ hcell.1 hcell.2]
        · rw [if_neg (fun hc => hji hc.1)]
          exact hinv j (by omega)
  | case2 i a h =>
    rw [boundsLoop_eq, if_neg h]
    exact ⟨hsz, fun j hj => hinv j (by omega)⟩

theorem BoundsFit_cell (lower upper : Int) (p : Nat) (hfit : BoundsFit lower upper p)
    (j : Nat) (hj : j < 2 * p) :
    LONG_MIN ≤ lower + ((j / 2 : Nat) : Int) * ((upper - lower).tdiv (p : Int) + 1)
      + ((j % 2 : Nat) : Int) * (upper - lower).tdiv (p : Int) ∧
    lower + ((j / 2 : Nat) : Int) * ((upper - lower).tdiv (p : Int) + 1)
      + ((j % 2 : Nat) : Int) * (upper - lower).tdiv (p : Int) ≤ LONG_MAX := by
  have hpair := hfit.2.2 (j / 2) (by omega)
  rcases Nat.mod_two_eq_zero_or_one j with h0 | h1
  · rw [h0]
    simp only [Nat.cast_zero, zero_mul, add_zero]
    exact ⟨hpair.1, hpair.2.1⟩
  · rw [h1]
    simp only [Nat.cast_one, one_mul]
    exact ⟨hpair.2.2.1, hpair.2.2.2⟩

theorem all_bounds_getD (lower upper : Int) (p : Nat) (hp : 1 ≤ p)
    (hfit : BoundsFit lower upper p) (j : Nat) (hj : j < 2 * p) :
    (all_bounds lower upper p).getD j 0 =
      if j = 2 * p - 1 then upper
      else lower + ((j / 2 : Nat) : Int) * ((upper - lower).tdiv (p : Int) + 1)
        + ((j % 2 : Nat) : Int) * (upper - lower).tdiv (p : Int) := by
  have hspec := boundsLoop_spec p ((upper - lower).tdiv (p : Int)) lower 1
    ((mkArray (2 * p) (0 : Int)).setD 0 lower) (BoundsFit_cell lower upper p hfit)
    (le_refl 1) (by omega) (by simp)
    (by
      intro k hk
      have hk0 : k = 0 := by omega
      subst hk0
      rw [getD_setD]
      simp
      omega)
  unfold all_bounds
  dsimp only
  rw [wrapLong_eq _ hfit.1 hfit.2.1, getD_setD, hspec.1]
  by_cases hlast : j = 2 * p - 1
  · rw [if_pos ⟨hlast, by omega⟩, if_pos hlast]
  · rw [if_neg (fun hc => hlast hc.1), if_neg hlast]
    exact hspec.2 j hj

/-- Closed form of the pair of bounds scattered to process `id`, when no bound
overflows. -/
theorem p_bounds_eq (lower upper : Int) (p : Nat) (hfit : BoundsFit lower upper p)
    (id : Nat) (hid : id < p) :
    p_bounds lower upper p id =
      (lower + (id : Int) * ((upper - lower).tdiv (p : Int) + 1),
       if id = p - 1 then upper
       else lower + (id : Int) * ((upper - lower).tdiv (p : Int) + 1)
         + (upper - lower).tdiv (p : Int)) := by
  unfold p_bounds
  rw [all_bounds_getD lower upper p (by omega) hfit (2 * id) (by omega),
    all_bounds_getD lower upper p (by omega) hfit (2 * id + 1) (by omega)]
  have h1 : 2 * id / 2 = id := by omega
  have h2 : 2 * id % 2 = 0 := by omega
  have h3 : (2 * id + 1) / 2 = id := by omega
  have h4 : (2 * id + 1) % 2 = 1 := by omega
  rw [if_neg (by omega), h1, h2, h3, h4]
  by_cases hlast : id = p - 1
  · rw [if_pos (by omega), if_pos hlast]
    simp
  · rw [if_neg (by omega), if_neg hlast]
    simp

/-- With one process the only scattered pair is `(lower, upper)`: the cell that the loop
writes is overwritten by `upper`. -/
theorem p_bounds_one (lower upper : Int) : p_bounds lower upper 1 0 = (lower, upper) := by
  unfold p_bounds all_bounds
  dsimp only
  rw [boundsLoop_eq, if_pos (by decide), boundsLoop_eq, if_neg (by decide),
    if_pos (by decide)]
  simp only [getD_setD, Array.size_setD, Array.size_mkArray]
  simp

theorem result_one (lower upper : Int) : result lower upper 1 = p_sum lower upper 1 0 := by
  simp [result, List.range_succ]

/-! ## The claims about the coordinator -/

/-- C5: for `lower ≤ upper`, `sumTotient lower upper` is the sum of `euler n` over
`lower ≤ n ≤ upper`, and so is the coordinator's result with exactly one process, whose
only sub-range is `[lower, upper]`. -/
theorem sumTotient_single_worker (lower upper : Int) (_h : lower ≤ upper) :
    sumTotient lower upper = ∑ n in Finset.Icc lower upper, euler n ∧
    p_bounds lower upper 1 0 = (lower, upper) ∧
    result lower upper 1 = ∑ n in Finset.Icc lower upper, euler n := by
  have hb : p_bounds lower upper 1 0 = (lower, upper) := p_bounds_one lower upper
  refine ⟨sumTotient_eq_sum lower upper, hb, ?_⟩
  rw [result_one, p_sum, hb, sumTotient_eq_sum]

/-- Witness of C5 at `lower = 3`, `upper = 7`. -/
theorem sumTotient_single_worker_witness :
    (3 : Int) ≤ 7 ∧
    sumTotient 3 7 = ∑ n in Finset.Icc (3 : Int) 7, euler n ∧
    p_bounds 3 7 1 0 = (3, 7) ∧
    result 3 7 1 = ∑ n in Finset.Icc (3 : Int) 7, euler n :=
  ⟨by decide, sumTotient_single_worker 3 7 (by decide)⟩

/-- C6, evaluated where it fails: with `lower = upper = 5` and three processes the
reduced total is `6` while `sumTotient 5 5 = 4`; with `lower = 1`, `upper = 11` and eight
processes the total is `sumTotient 1 14`, not `sumTotient 1 11`. -/
theorem result_ne_sumTotient_5_5_3 :
    result 5 5 3 = 6 ∧ sumTotient 5 5 = 4 ∧ result 5 5 3 ≠ sumTotient 5 5 ∧
    result 1 11 8 = 63 ∧ sumTotient 1 11 = 41 := by
  decide

/-- C7, evaluated where it fails: with `lower = upper = 5` and three processes the
scattered sub-ranges are `[5,5]`, `[6,6]` and `[7,5]`; the second holds `6`, which is
outside `[5,5]`, so the union of the sub-ranges is not the range. -/
theorem subRanges_not_tiling_5_5_3 :
    p_bounds 5 5 3 0 = (5, 5) ∧ p_bounds 5 5 3 1 = (6, 6) ∧ p_bounds 5 5 3 2 = (7, 5) ∧
    (6 : Int) ∈ subRange (p_bounds 5 5 3 1) ∧ (6 : Int) ∉ Finset.Icc (5 : Int) 5 ∧
    (Finset.range 3).biUnion (fun j => subRange (p_bounds 5 5 3 j)) ≠ Finset.Icc 5 5 := by
  decide

/-- C8, evaluated: with `lower = 5`, `upper = 5` and three processes the processes
compute `4`, `2` and `0`, the reduced total is `6`, and `euler 5 = 4`. -/
theorem result_5_5_3 :
    p_sum 5 5 3 0 = 4 ∧ p_sum 5 5 3 1 = 2 ∧ p_sum 5 5 3 2 = 0 ∧
    result 5 5 3 = 6 ∧ euler 5 = 4 := by
  decide

/-- C9 as stated fails: the total for `lower = 1`, `upper = 10` with four processes and
`sumTotient 1 10` are not both `1+1+2+2+4+2+6+4+6+4 = 32`. -/
theorem end_to_end_not_32 :
    ¬ (result 1 10 4 = sumTotient 1 10 ∧
       sumTotient 1 10 = 1 + 1 + 2 + 2 + 4 + 2 + 6 + 4 + 6 + 4 ∧
       result 1 10 4 = 32) := by
  decide

/-- C9, amended: the total for `lower = 1`, `upper = 10` with four processes equals
`sumTotient 1 10`, and both equal `0+1+2+2+4+2+6+4+6+4 = 31`, the first term being
`euler 1 = 0`. -/
theorem end_to_end_31 :
    result 1 10 4 = sumTotient 1 10 ∧
    sumTotient 1 10 = 0 + 1 + 2 + 2 + 4 + 2 + 6 + 4 + 6 + 4 ∧
    result 1 10 4 = 31 ∧ euler 1 = 0 := by
  decide

/-- C10, evaluated where it fails: for `lower = upper = 5` and three processes sub-range
`1` is `[6, 6]`, where the documented policy gives the empty `[6, 5]`; for `lower = 1`,
`upper = 10` and four processes sub-ranges `1` and `2` are `[4, 6]` and `[7, 9]`, where the
policy gives `[4, 5]` and `[6, 7]`. -/
theorem p_bounds_against_policy :
    p_bounds 5 5 3 1 = (6, 6) ∧ policySubRange 5 5 3 1 = (6, 5) ∧
    p_bounds 1 10 4 1 = (4, 6) ∧ policySubRange 1 10 4 1 = (4, 5) ∧
    p_bounds 1 10 4 2 = (7, 9) ∧ policySubRange 1 10 4 2 = (6, 7) := by
  decide

/-! ## Empty ranges and the operation counter -/

/-- C11: when `lower > upper`, `sumTotient lower upper` returns `0`, the empty sum, so a
process whose scattered sub-range is empty contributes a `p_sum` of exactly `0`. -/
theorem sumTotient_empty (lower upper : Int) (h : upper < lower) :
    sumTotient lower upper = 0 ∧
    (∀ (lo up : Int) (p id : Nat),
      (p_bounds lo up p id).2 < (p_bounds lo up p id).1 → p_sum lo up p id = 0) := by
  constructor
  · rw [sumTotient, sumTotientLoop_eq, if_neg (by omega)]
  · intro lo up p id hlt
    rw [p_sum, sumTotient, sumTotientLoop_eq, if_neg (by omega)]

/-- Witness of C11 at `lower = 7`, `upper = 5`, and at the empty sub-range `[7, 5]` that
the third of three processes receives for `lower = upper = 5`. -/
theorem sumTotient_empty_witness :
    (5 : Int) < 7 ∧ sumTotient 7 5 = 0 ∧ p_bounds 5 5 3 2 = (7, 5) ∧ p_sum 5 5 3 2 = 0 :=
  ⟨by decide, (sumTotient_empty 7 5 (by decide)).1, by decide,
    (sumTotient_empty 7 5 (by decide)).2 5 5 3 2 (by decide)⟩

theorem seq_hcf_fst (x y op : Int) : (Seq.hcf x y op).1 = hcf x y := by
  induction x, y, op using Seq.hcf.induct with
  | case1 x y op hy ih =>
    rw [Seq.hcf, if_pos hy, ih, hcf_eq x y, if_pos hy]
  | case2 x y op hy =>
    rw [Seq.hcf, if_neg hy, hcf_eq x y, if_neg hy]

theorem seq_relprime_fst (x y op : Int) : (Seq.relprime x y op).1 = relprime x y := by
  simp only [Seq.relprime, relprime, seq_hcf_fst]

theorem seq_eulerLoop_fst (n i length op : Int) :
    (Seq.eulerLoop n i length op).1 = eulerLoop n i length := by
  induction i, length, op using Seq.eulerLoop.induct n with
  | case1 i length op h hr ih =>
    rw [Seq.eulerLoop, if_pos h, if_pos hr, ih, eulerLoop_eq n i, if_pos h]
    rw [seq_relprime_fst] at hr
    rw [if_pos hr]
  | case2 i length op h hr ih =>
    rw [Seq.eulerLoop, if_pos h, if_neg hr, ih, eulerLoop_eq n i, if_pos h]
    rw [seq_relprime_fst] at hr
    rw [if_neg hr]
  | case3 i length op h =>
    rw [Seq.eulerLoop, if_neg h, eulerLoop_eq n i, if_neg h]

theorem seq_euler_fst (n op : Int) : (Seq.euler n op).1 = euler n := by
  rw [Seq.euler, seq_eulerLoop_fst, euler]

theorem seq_sumTotientLoop_fst (upper i sum op : Int) :
    (Seq.sumTotientLoop upper i sum op).1 = sumTotientLoop upper i sum := by
  induction i, sum, op using Seq.sumTotientLoop.induct upper with
  | case1 i sum op h ih =>
    rw [Seq.sumTotientLoop, if_pos h, ih, seq_euler_fst, sumTotientLoop_eq upper i, if_pos h]
  | case2 i sum op h =>
    rw [Seq.sumTotientLoop, if_neg h, sumTotientLoop_eq upper i, if_neg h]

theorem seq_sumTotient_fst (lower upper op : Int) :
    (Seq.sumTotient lower upper op).1 = sumTotient lower upper := by
  rw [Seq.sumTotient, seq_sumTotientLoop_fst, sumTotient]

/-- C12: in the instrumented sequential variant, with `op_number` as explicit state, the
values returned by `sumTotient lower upper` and `euler n` do not depend on the counter on
entry; a second call, entered with the counter left by the first, returns the same sum;
and the values are those of the uninstrumented functions. The counter itself does carry
over: after `sumTotient 5 5` from `0` it is `29`. -/
theorem op_number_not_observable (lower upper n op op2 : Int) :
    (Seq.sumTotient lower upper op).1 = (Seq.sumTotient lower upper op2).1 ∧
    (Seq.euler n op).1 = (Seq.euler n op2).1 ∧
    (Seq.sumTotient lower upper (Seq.sumTotient lower upper op).2).1 =
      (Seq.sumTotient lower upper op).1 ∧
    (Seq.sumTotient lower upper op).1 = sumTotient lower upper ∧
    (Seq.euler n op).1 = euler n ∧
    Seq.sumTotient 5 5 0 = (4, 29) := by
  refine ⟨?_, ?_, ?_, seq_sumTotient_fst lower upper op, seq_euler_fst n op, by decide⟩
  · rw [seq_sumTotient_fst, seq_sumTotient_fst]
  · rw [seq_euler_fst, seq_euler_fst]
  · rw [seq_sumTotient_fst, seq_sumTotient_fst]

theorem hcf_ne_one_of_even (x y : Int) (hx : x.tmod 2 = 0) (hy : y.tmod 2 = 0) :
    hcf x y ≠ 1 := by
  intro h1
  have hg : Int.gcd x y = 1 := by
    rw [← natAbs_hcf, h1]
    rfl
  have h2x : (2 : Int) ∣ x := Int.dvd_of_tmod_eq_zero hx
  have h2y : (2 : Int) ∣ y := Int.dvd_of_tmod_eq_zero hy
  have h2 : (2 : Int) ∣ (Int.gcd x y : Int) := Int.dvd_gcd h2x h2y
  rw [hg] at h2
  revert h2
  decide

/-- C20: the parity shortcut is sound: for all integers `x` and `y`, in particular the
non-negative ones, `relprime2 x y` returns the same truth value as `relprime x y`,
whatever the operation counter is on entry of either call. -/
theorem relprime2_eq_relprime (x y op op2 : Int) :
    (Seq.relprime2 x y op).1 = (Seq.relprime x y op2).1 ∧
    (Seq.relprime2 x y op).1 = relprime x y := by
  have key : (Seq.relprime2 x y op).1 = relprime x y := by
    unfold Seq.relprime2 relprime
    by_cases hev : x.tmod 2 = 0 ∧ y.tmod 2 = 0
    · rw [if_pos hev, if_neg (hcf_ne_one_of_even x y hev.1 hev.2)]
    · rw [if_neg hev]
      simp only [seq_hcf_fst]
  exact ⟨by rw [key, seq_relprime_fst], key⟩


/-! ## Division safety -/

theorem hcfRems_eq (x y : Int) :
    hcfRems x y = if y ≠ 0 then (x, y) :: hcfRems y (x.tmod y) else [] := by
  rw [hcfRems]

theorem hcfRems_divisor_ne_zero (x y : Int) : ∀ d ∈ hcfRems x y, d.2 ≠ 0 := by
  induction x, y using hcfRems.induct with
  | case1 x y hy ih =>
    intro d hd
    rw [hcfRems_eq, if_pos hy, List.mem_cons] at hd
    rcases hd with rfl | hd
    · exact hy
    · exact ih d hd
  | case2 x y hy =>
    intro d hd
    rw [hcfRems_eq, if_neg hy] at hd
    exact absurd hd (List.not_mem_nil d)

theorem hcfChecked_eq_some (x y : Int) : hcfChecked x y = some (hcf x y) := by
  induction x, y using hcf.induct with
  | case1 x y hy ih =>
    rw [hcfChecked, if_pos hy, hcf_eq x y, if_pos hy]
    have hrem : checkedRem x y = some (x.tmod y) := by
      rw [checkedRem, if_neg hy]
    rw [hrem]
    exact ih
  | case2 x y hy =>
    rw [hcfChecked, if_neg hy, hcf_eq x y, if_neg hy]

theorem eulerCallsLoop_eq (n i : Int) (calls : List (Int × Int)) :
    eulerCallsLoop n i calls =
      if i < n then eulerCallsLoop n (i + 1) (calls ++ [(n, i)]) else calls := by
  rw [eulerCallsLoop]

theorem eulerCallsLoop_append (n i : Int) (calls : List (Int × Int)) :
    ∀ pre : List (Int × Int),
      eulerCallsLoop n i (pre ++ calls) = pre ++ eulerCallsLoop n i calls := by
  induction i, calls using eulerCallsLoop.induct n with
  | case1 i calls h ih =>
    intro pre
    rw [eulerCallsLoop_eq n i (pre ++ calls), if_pos h, List.append_assoc, ih pre,
      eulerCallsLoop_eq n i calls, if_pos h]
  | case2 i calls h =>
    intro pre
    rw [eulerCallsLoop_eq n i (pre ++ calls), if_neg h, eulerCallsLoop_eq n i calls, if_neg h]

theorem eulerCallsLoop_cons (n i : Int) (h : i < n) :
    eulerCallsLoop n i [] = (n, i) :: eulerCallsLoop n (i + 1) [] := by
  rw [eulerCallsLoop_eq n i [], if_pos h]
  have happ := eulerCallsLoop_append n (i + 1) [] [(n, i)]
  simpa using happ

theorem eulerCallsLoop_mem (n i : Int) (calls : List (Int × Int)) :
    ∀ c ∈ eulerCallsLoop n i calls, c ∈ calls ∨ (c.1 = n ∧ i ≤ c.2 ∧ c.2 ≤ n - 1) := by
  induction i, calls using eulerCallsLoop.induct n with
  | case1 i calls h ih =>
    intro c hc
    rw [eulerCallsLoop_eq n i calls, if_pos h] at hc
    rcases ih c hc with hmem | hnew
    · rw [List.mem_append, List.mem_singleton] at hmem
      rcases hmem with hmem | rfl
      · exact Or.inl hmem
      · exact Or.inr ⟨rfl, le_refl _, by simp only; omega⟩
    · exact Or.inr ⟨hnew.1, by omega, hnew.2.2⟩
  | case2 i calls h =>
    intro c hc
    rw [eulerCallsLoop_eq n i calls, if_neg h] at hc
    exact Or.inl hc

theorem eulerCalls_mem (n : Int) :
    ∀ c ∈ eulerCalls n, c.1 = n ∧ 1 ≤ c.2 ∧ c.2 ≤ n - 1 := by
  intro c hc
  rcases eulerCallsLoop_mem n 1 [] c hc with hmem | hnew
  · exact absurd hmem (List.not_mem_nil c)
  · exact hnew

theorem eulerLoop_eq_countP (n i length : Int) :
    eulerLoop n i length =
      length + (((eulerCallsLoop n i []).countP (fun c => relprime c.1 c.2 ≠ 0) : Nat) : Int) := by
  induction i, length using eulerLoop.induct n with
  | case1 i length h ih =>
    simp only [dite_eq_ite] at ih
    rw [eulerLoop_eq, if_pos h, ih, eulerCallsLoop_cons n i h, List.countP_cons]
    by_cases hr : relprime n i ≠ 0
    · have hd : decide (relprime n i ≠ 0) = true := decide_eq_true hr
      rw [if_pos hr]
      simp only [hd, if_true]
      push_cast
      ring
    · have hd : decide (relprime n i ≠ 0) = false := decide_eq_false hr
      rw [if_neg hr]
      simp only [hd]
      simp
  | case2 i length h =>
    rw [eulerLoop_eq, if_neg h, eulerCallsLoop_eq n i [], if_neg h]
    simp

/-- C15: for `n ≥ 1`, every call `relprime(n, i)` made by `euler n` has `1 ≤ i ≤ n - 1`,
so `hcf` is never entered with the pair `(0, 0)` and its first remainder is `n % i` with
`i ≥ 1` (and these calls are the ones `euler` counts); for all inputs `hcf` evaluates
`x % y` only with `y ≠ 0`, so the checked `hcf` never meets a division by zero. -/
theorem division_safety (n x y : Int) (hn : 1 ≤ n) :
    (∀ c ∈ eulerCalls n, c.1 = n ∧ 1 ≤ c.2 ∧ c.2 ≤ n - 1) ∧
    (∀ c ∈ eulerCalls n, c ≠ (0, 0) ∧ (hcfRems c.1 c.2).head? = some c ∧ 1 ≤ c.2) ∧
    euler n = (((eulerCalls n).countP (fun c => relprime c.1 c.2 ≠ 0) : Nat) : Int) ∧
    (∀ d ∈ hcfRems x y, d.2 ≠ 0) ∧
    hcfChecked x y = some (hcf x y) := by
  refine ⟨eulerCalls_mem n, ?_, ?_, hcfRems_divisor_ne_zero x y, hcfChecked_eq_some x y⟩
  · intro c hc
    have hmem := eulerCalls_mem n c hc
    refine ⟨?_, ?_, hmem.2.1⟩
    · intro h0
      rw [h0] at hmem
      simp only at hmem
      omega
    · rw [hcfRems_eq, if_pos (by omega)]
      rfl
  · rw [euler, eulerLoop_eq_countP, zero_add, eulerCalls]

/-- Witness of C15 at `n = 6`, `x = 30`, `y = 12`. -/
theorem division_safety_witness :
    (1 : Int) ≤ 6 ∧ (∀ c ∈ eulerCalls 6, c.1 = 6 ∧ 1 ≤ c.2 ∧ c.2 ≤ 6 - 1) ∧
    hcfChecked 30 12 = some (hcf 30 12) :=
  ⟨by decide, (division_safety 6 30 12 (by decide)).1,
    (division_safety 6 30 12 (by decide)).2.2.2.2⟩

/-! ## Termination -/

theorem hcfFuel_eq_some (fuel : Nat) :
    ∀ x y : Int, y.natAbs < fuel → hcfFuel fuel x y = some (hcf x y) := by
  induction fuel with
  | zero =>
    intro x y h
    exact absurd h (Nat.not_lt_zero _)
  | succ fuel ih =>
    intro x y h
    rw [hcfFuel, hcf_eq x y]
    by_cases hy : y ≠ 0
    · rw [if_pos hy, if_pos hy]
      apply ih
      have hlt : (x.tmod y).natAbs < y.natAbs := by
        rw [natAbs_tmod]
        exact Nat.mod_lt _ (Int.natAbs_pos.mpr hy)
      omega
    · rw [if_neg hy, if_neg hy]

theorem eulerLoopFuel_eq_some (fuel : Nat) :
    ∀ n i length : Int, (n - i).toNat < fuel →
      eulerLoopFuel fuel n i length = some (eulerLoop n i length) := by
  induction fuel with
  | zero =>
    intro n i length h
    exact absurd h (Nat.not_lt_zero _)
  | succ fuel ih =>
    intro n i length h
    rw [eulerLoopFuel, eulerLoop_eq n i]
    by_cases hi : i < n
    · rw [if_pos hi, if_pos hi]
      apply ih
      omega
    · rw [if_neg hi, if_neg hi]

theorem sumTotientLoopFuel_eq_some (fuel : Nat) :
    ∀ upper i sum : Int, upper < LONG_MAX → LONG_MIN ≤ i → (upper + 1 - i).toNat < fuel →
      sumTotientLoopFuel fuel upper i (wrapLong sum) =
        some (wrapLong (sumTotientLoop upper i sum)) := by
  induction fuel with
  | zero =>
    intro upper i sum _ _ h
    exact absurd h (Nat.not_lt_zero _)
  | succ fuel ih =>
    intro upper i sum hup hlo h
    rw [sumTotientLoopFuel, sumTotientLoop_eq upper i]
    by_cases hi : i ≤ upper
    · rw [if_pos hi, if_pos hi, wrapLong_add, wrapLong_eq (i + 1) (by omega) (by omega)]
      exact ih upper (i + 1) (sum + euler i) hup (by omega) (by omega)
    · rw [if_neg hi, if_neg hi]

theorem sumTotientLoopFuel_eq_none (fuel : Nat) :
    ∀ i sum : Int, i ≤ LONG_MAX → sumTotientLoopFuel fuel LONG_MAX i sum = none := by
  induction fuel with
  | zero =>
    intro i sum _
    rfl
  | succ fuel ih =>
    intro i sum hi
    rw [sumTotientLoopFuel, if_pos hi]
    exact ih _ _ (wrapLong_le _)

/-- C18 as stated fails for `sumTotient`: with `lower = upper = LONG_MAX` the guard
`i <= upper` holds of every value a `long` index can take, so the loop returns for no
amount of fuel. -/
theorem sumTotient_not_total :
    ¬ ∃ (fuel : Nat) (v : Int), sumTotientLoopFuel fuel LONG_MAX LONG_MAX 0 = some v := by
  rintro ⟨fuel, v, h⟩
  rw [sumTotientLoopFuel_eq_none fuel LONG_MAX 0 (le_refl _)] at h
  exact Option.noConfusion h

/-- C18, amended: `hcf` terminates on all non-negative `x` and `y`: when the loop guard
`y ≠ 0` holds the new second argument `x % y` satisfies `0 ≤ x % y < y`, and `y + 1`
iterations of fuel are enough for the loop to return `hcf x y`; the loop of `euler`
returns within `(n - 1) + 1` tests of its guard; and the loop of `sumTotient`, with its
`long` index and sum, returns within `(upper + 1 - lower) + 1` tests of its guard
whenever `upper < LONG_MAX`, the value returned being the sum of the totients wrapped to
a `long`, while for `upper = LONG_MAX` it returns for no amount of fuel, from whatever
`long` value of `lower` it starts. -/
theorem hcf_terminates (x y : Int) (hx : 0 ≤ x) (hy : 0 ≤ y) :
    (y ≠ 0 → 0 ≤ x.tmod y ∧ x.tmod y < y) ∧
    hcfFuel (y.toNat + 1) x y = some (hcf x y) ∧
    (∀ n : Int, eulerLoopFuel ((n - 1).toNat + 1) n 1 0 = some (euler n)) ∧
    (∀ lower upper : Int, LONG_MIN ≤ lower → upper < LONG_MAX →
      sumTotientLoopFuel ((upper + 1 - lower).toNat + 1) upper lower 0 =
        some (wrapLong (sumTotient lower upper))) ∧
    (∀ (fuel : Nat) (lower : Int), lower ≤ LONG_MAX →
      sumTotientLoopFuel fuel LONG_MAX lower 0 = none) := by
  refine ⟨?_, ?_, ?_, ?_, fun fuel lower hl => sumTotientLoopFuel_eq_none fuel lower 0 hl⟩
  · intro hne
    exact ⟨Int.tmod_nonneg y hx, Int.tmod_lt_of_pos x (by omega)⟩
  · apply hcfFuel_eq_some
    omega
  · intro n
    exact eulerLoopFuel_eq_some _ n 1 0 (by omega)
  · intro lower upper hlo hup
    have h := sumTotientLoopFuel_eq_some ((upper + 1 - lower).toNat + 1) upper lower 0 hup hlo
      (by omega)
    have h0 : wrapLong 0 = 0 := by decide
    rw [h0] at h
    exact h

/-- Witness of C18 at `x = 30`, `y = 12`, and at `lower = 3`, `upper = 7`. -/
theorem hcf_terminates_witness :
    (0 : Int) ≤ 30 ∧ (0 : Int) ≤ 12 ∧
    hcfFuel ((12 : Int).toNat + 1) 30 12 = some (hcf 30 12) ∧
    sumTotientLoopFuel (((7 : Int) + 1 - 3).toNat + 1) 7 3 0 = some (wrapLong (sumTotient 3 7)) :=
  ⟨by decide, by decide, (hcf_terminates 30 12 (by decide) (by decide)).2.1,
    (hcf_terminates 30 12 (by decide) (by decide)).2.2.2.1 3 7 (by decide) (by decide)⟩

/-! ## The range of the totient count -/

theorem euler_nonneg (n : Int) : 0 ≤ euler n := by
  rw [euler_eq_card_relprime]
  exact Int.natCast_nonneg _

theorem euler_le (n : Int) (h : 1 ≤ n) : euler n ≤ n - 1 := by
  rw [euler_eq_card_relprime]
  have hcard : ((Finset.Ico 1 n).filter (fun j => relprime n j ≠ 0)).card ≤
      (Finset.Ico 1 n).card := Finset.card_filter_le _ _
  rw [Int.card_Ico] at hcard
  omega

theorem euler_of_le_one (n : Int) (h : n ≤ 1) : euler n = 0 := by
  rw [euler, eulerLoop_eq, if_neg (by omega)]

theorem relprime_one (n : Int) (h : 0 ≤ n) : relprime n 1 ≠ 0 := by
  rw [relprime_ne_zero_iff, hcf_eq_gcd n 1 h (by decide)]
  simp

theorem relprime_pred (n : Int) (h : 1 ≤ n) : relprime n (n - 1) ≠ 0 := by
  rw [relprime_ne_zero_iff, hcf_eq_gcd n (n - 1) (by omega) (by omega)]
  have hco : IsCoprime n (n - 1) := ⟨1, -1, by ring⟩
  have hg := Int.isCoprime_iff_gcd_eq_one.mp hco
  exact_mod_cast hg

theorem one_le_euler (n : Int) (h : 2 ≤ n) : 1 ≤ euler n := by
  rw [euler_eq_card_relprime]
  have hmem : (1 : Int) ∈ (Finset.Ico 1 n).filter (fun j => relprime n j ≠ 0) := by
    rw [Finset.mem_filter, Finset.mem_Ico]
    exact ⟨⟨le_refl _, by omega⟩, relprime_one n (by omega)⟩
  have hpos := Finset.card_pos.mpr ⟨1, hmem⟩
  omega

theorem two_le_euler (n : Int) (h : 3 ≤ n) : 2 ≤ euler n := by
  rw [euler_eq_card_relprime]
  have hsub : ({1, n - 1} : Finset Int) ⊆ (Finset.Ico 1 n).filter (fun j => relprime n j ≠ 0) := by
    intro j hj
    rw [Finset.mem_insert, Finset.mem_singleton] at hj
    rw [Finset.mem_filter, Finset.mem_Ico]
    rcases hj with rfl | rfl
    · exact ⟨⟨le_refl _, by omega⟩, relprime_one n (by omega)⟩
    · exact ⟨⟨by omega, by omega⟩, relprime_pred n (by omega)⟩
  have hcard := Finset.card_le_card hsub
  rw [Finset.card_pair (by omega)] at hcard
  omega

theorem eulerLoopChecked_eq_some (n : Int) (hn : n ≤ LONG_MAX) (i length : Int)
    (hlen : length ≤ i - 1) :
    eulerLoopChecked n i length = some (eulerLoop n i length) := by
  induction i, length using eulerLoop.induct n with
  | case1 i length h ih =>
    simp only [dite_eq_ite] at ih
    rw [eulerLoopChecked, if_pos h, eulerLoop_eq n i, if_pos h]
    rw [if_neg (by omega)]
    apply ih
    split <;> omega
  | case2 i length h =>
    rw [eulerLoopChecked, if_neg h, eulerLoop_eq n i, if_neg h]

theorem two_mul_le_sumTotient (b : Int) (hb : 2 ≤ b) : 2 * (b - 2) ≤ sumTotient 3 b := by
  rw [sumTotient_eq_sum]
  have hle : ∑ _n in Finset.Icc (3 : Int) b, (2 : Int) ≤
      ∑ n in Finset.Icc (3 : Int) b, euler n := by
    apply Finset.sum_le_sum
    intro n hn
    rw [Finset.mem_Icc] at hn
    exact two_le_euler n hn.1
  rw [Finset.sum_const, Int.card_Icc, nsmul_eq_mul] at hle
  have hcast : (((b + 1 - 3).toNat : Nat) : Int) = b - 2 := by omega
  rw [hcast] at hle
  omega

theorem le_sumTotientLoop (upper i sum : Int) : sum ≤ sumTotientLoop upper i sum := by
  rw [sumTotientLoop_sum]
  have h : 0 ≤ ∑ n in Finset.Icc i upper, euler n :=
    Finset.sum_nonneg (fun n _ => euler_nonneg n)
  omega

theorem sumTotientLoopChecked_eq (upper i sum : Int) :
    sumTotientLoopChecked upper i sum =
      if i ≤ upper then
        if LONG_MAX < sum + euler i then Run.accumulationOverflow
        else if LONG_MAX < i + 1 then Run.indexOverflow
        else sumTotientLoopChecked upper (i + 1) (sum + euler i)
      else Run.returned sum := by
  rw [sumTotientLoopChecked]

/-- How the checked loop of `sumTotient` ends, for an `upper` that fits a `long`: in an
overflow of the accumulation when the sum of the totients exceeds `LONG_MAX`; otherwise
in an overflow of `i++` when `upper = LONG_MAX` and the loop is entered; otherwise with
the sum. -/
theorem sumTotientLoopChecked_spec (upper : Int) (hup : upper ≤ LONG_MAX) (i sum : Int)
    (hsum : sum ≤ LONG_MAX) :
    sumTotientLoopChecked upper i sum =
      if LONG_MAX < sumTotientLoop upper i sum then Run.accumulationOverflow
      else if upper = LONG_MAX ∧ i ≤ upper then Run.indexOverflow
      else Run.returned (sumTotientLoop upper i sum) := by
  induction i, sum using sumTotientLoopChecked.induct upper with
  | case1 i sum hi hacc =>
    have hmono := le_sumTotientLoop upper (i + 1) (sum + euler i)
    rw [sumTotientLoopChecked_eq, if_pos hi, if_pos hacc, sumTotientLoop_eq upper i, if_pos hi,
      if_pos (by omega)]
  | case2 i sum hi hacc hidx =>
    have hexit : sumTotientLoop upper (i + 1) (sum + euler i) = sum + euler i := by
      rw [sumTotientLoop_eq, if_neg (by omega)]
    rw [sumTotientLoopChecked_eq, if_pos hi, if_neg hacc, if_pos hidx,
      sumTotientLoop_eq upper i, if_pos hi, hexit, if_neg hacc, if_pos ⟨by omega, hi⟩]
  | case3 i sum hi hacc hidx ih =>
    rw [sumTotientLoopChecked_eq, if_pos hi, if_neg hacc, if_neg hidx, ih (by omega),
      sumTotientLoop_eq upper i, if_pos hi]
    by_cases htop : upper = LONG_MAX
    · have c1 : upper = LONG_MAX ∧ i + 1 ≤ upper := ⟨htop, by omega⟩
      have c2 : upper = LONG_MAX ∧ i ≤ upper := ⟨htop, hi⟩
      rw [if_pos c1, if_pos c2]
    · have c1 : ¬ (upper = LONG_MAX ∧ i + 1 ≤ upper) := fun h => htop h.1
      have c2 : ¬ (upper = LONG_MAX ∧ i ≤ upper) := fun h => htop h.1
      rw [if_neg c1, if_neg c2]
  | case4 i sum hi =>
    rw [sumTotientLoopChecked_eq, if_neg hi, sumTotientLoop_eq upper i, if_neg hi,
      if_neg (by omega), if_neg (fun hc => hi hc.2)]

theorem sumTotientChecked_index_overflow :
    sumTotientChecked LONG_MAX LONG_MAX = Run.indexOverflow := by
  have hone : (1 : Int) ≤ LONG_MAX := by decide
  have heul := euler_le LONG_MAX hone
  have hval : sumTotientLoop LONG_MAX LONG_MAX 0 = euler LONG_MAX := by
    rw [sumTotientLoop_eq, if_pos (le_refl _), sumTotientLoop_eq, if_neg (by omega), zero_add]
  rw [sumTotientChecked, sumTotientLoopChecked_spec LONG_MAX (le_refl _) LONG_MAX 0 (by decide),
    hval, if_neg (by omega), if_pos ⟨rfl, le_refl _⟩]

/-- C19 as stated fails: in `sumTotient` not only the accumulation can overflow. For
`lower = upper = LONG_MAX` the accumulated sum `euler LONG_MAX` is at most `LONG_MAX - 1`
and fits, and the run ends in the overflow of the increment `i++`. -/
theorem index_overflow_at_LONG_MAX :
    ¬ (sumTotientChecked LONG_MAX LONG_MAX ≠ Run.indexOverflow) ∧
    0 + euler LONG_MAX ≤ LONG_MAX := by
  have hone : (1 : Int) ≤ LONG_MAX := by decide
  have heul := euler_le LONG_MAX hone
  exact ⟨fun h => h sumTotientChecked_index_overflow, by omega⟩

/-- C19, amended: for `n ≥ 1`, `0 ≤ euler n ≤ n - 1`, and for `n ≤ 1` (zero and negative
`n` included) `euler n = 0`; consequently, for every `n` that fits a `long`, no increment
in `euler` overflows (the checked `euler` returns the value). In `sumTotient`, for every
`upper` that fits a `long`, the accumulation overflows exactly when the sum of the
totients exceeds `LONG_MAX`, as it does over `[3, LONG_MAX - 1]`; besides it only the
increment `i++` can overflow, exactly when `upper = LONG_MAX` and `lower ≤ upper`; in
every other case the sum is returned. -/
theorem euler_range (n : Int) :
    (1 ≤ n → 0 ≤ euler n ∧ euler n ≤ n - 1) ∧
    (n ≤ 1 → euler n = 0) ∧
    (n ≤ LONG_MAX → eulerChecked n = some (euler n) ∧ 0 ≤ euler n ∧ euler n ≤ LONG_MAX) ∧
    (∀ lower upper : Int, upper ≤ LONG_MAX →
      sumTotientChecked lower upper =
        if LONG_MAX < sumTotient lower upper then Run.accumulationOverflow
        else if upper = LONG_MAX ∧ lower ≤ upper then Run.indexOverflow
        else Run.returned (sumTotient lower upper)) ∧
    sumTotientChecked 3 (LONG_MAX - 1) = Run.accumulationOverflow := by
  have hspec : ∀ lower upper : Int, upper ≤ LONG_MAX →
      sumTotientChecked lower upper =
        if LONG_MAX < sumTotient lower upper then Run.accumulationOverflow
        else if upper = LONG_MAX ∧ lower ≤ upper then Run.indexOverflow
        else Run.returned (sumTotient lower upper) := by
    intro lower upper hup
    exact sumTotientLoopChecked_spec upper hup lower 0 (by decide)
  refine ⟨fun h => ⟨euler_nonneg n, euler_le n h⟩, euler_of_le_one n, ?_, hspec, ?_⟩
  · intro h
    refine ⟨eulerLoopChecked_eq_some n h 1 0 (by omega), euler_nonneg n, ?_⟩
    by_cases h1 : 1 ≤ n
    · have := euler_le n h1
      omega
    · rw [euler_of_le_one n (by omega)]
      decide
  · have hbig := two_mul_le_sumTotient (LONG_MAX - 1) (by decide)
    have hmax := LONG_MAX_eq
    rw [hspec 3 (LONG_MAX - 1) (by omega), if_pos (by omega)]

/-- Witness of C19 at `n = 30`, and at the range `[3, 7]`, whose sum is returned. -/
theorem euler_range_witness :
    (1 : Int) ≤ 30 ∧ 0 ≤ euler 30 ∧ euler 30 ≤ 30 - 1 ∧
    sumTotientChecked 3 7 = Run.returned (sumTotient 3 7) :=
  ⟨by decide, ((euler_range 30).1 (by decide)).1, ((euler_range 30).1 (by decide)).2,
    by
      have h := (euler_range 30).2.2.2.1 3 7 (by decide)
      rw [if_neg (by decide), if_neg (by decide)] at h
      exact h⟩

/-! ## The decomposition: closed form and exact condition -/

theorem sumTotient_split (a b c : Int) (h1 : a ≤ b + 1) (h2 : b ≤ c) :
    sumTotient a c = sumTotient a b + sumTotient (b + 1) c := by
  rw [sumTotient_eq_sum, sumTotient_eq_sum, sumTotient_eq_sum]
  have hunion : Finset.Icc a c = Finset.Icc a b ∪ Finset.Icc (b + 1) c := by
    ext j
    simp only [Finset.mem_Icc, Finset.mem_union]
    omega
  have hdisj : Disjoint (Finset.Icc a b) (Finset.Icc (b + 1) c) := by
    rw [Finset.disjoint_left]
    intro j hj hj2
    rw [Finset.mem_Icc] at hj hj2
    omega
  rw [hunion, Finset.sum_union hdisj]

theorem sumTotient_of_lt (a b : Int) (h : b < a) : sumTotient a b = 0 := by
  rw [sumTotient, sumTotientLoop_eq, if_neg (by omega)]

theorem sumTotient_pos (a b : Int) (ha : 2 ≤ a) (hab : a ≤ b) : 0 < sumTotient a b := by
  rw [sumTotient_eq_sum]
  apply Finset.sum_pos
  · intro n hn
    rw [Finset.mem_Icc] at hn
    have := one_le_euler n (by omega)
    omega
  · exact ⟨a, Finset.mem_Icc.mpr ⟨le_refl _, hab⟩⟩

theorem blocks_sum (L w : Int) (hw : 0 ≤ w) (m : Nat) :
    ((List.range m).map
      (fun j : Nat => sumTotient (L + (j : Int) * (w + 1)) (L + (j : Int) * (w + 1) + w))).sum =
      sumTotient L (L + (m : Int) * (w + 1) - 1) := by
  induction m with
  | zero =>
    rw [sumTotient_of_lt L _ (by simp)]
    rfl
  | succ m ih =>
    rw [List.range_succ, List.map_append, List.sum_append, ih]
    simp only [List.map_cons, List.map_nil, List.sum_cons, List.sum_nil, add_zero]
    have hm : (0 : Int) ≤ (m : Int) * (w + 1) :=
      mul_nonneg (Int.natCast_nonneg m) (by omega)
    rw [sumTotient_split L (L + (m : Int) * (w + 1) - 1) (L + ((m + 1 : Nat) : Int) * (w + 1) - 1)
      (by omega) (by push_cast; nlinarith)]
    have e1 : L + (m : Int) * (w + 1) - 1 + 1 = L + (m : Int) * (w + 1) := by ring
    have e2 : L + ((m + 1 : Nat) : Int) * (w + 1) - 1 = L + (m : Int) * (w + 1) + w := by
      push_cast
      ring
    rw [e1, e2]

theorem result_eq_blocks (lower upper : Int) (q : Nat) (hfit : BoundsFit lower upper (q + 1)) :
    result lower upper (q + 1) =
      ((List.range q).map (fun j : Nat =>
        sumTotient (lower + (j : Int) * ((upper - lower).tdiv ((q + 1 : Nat) : Int) + 1))
          (lower + (j : Int) * ((upper - lower).tdiv ((q + 1 : Nat) : Int) + 1)
            + (upper - lower).tdiv ((q + 1 : Nat) : Int)))).sum
      + sumTotient (lower + (q : Int) * ((upper - lower).tdiv ((q + 1 : Nat) : Int) + 1)) upper := by
  have hlast : p_sum lower upper (q + 1) q =
      sumTotient (lower + (q : Int) * ((upper - lower).tdiv ((q + 1 : Nat) : Int) + 1))
        upper := by
    rw [p_sum, p_bounds_eq lower upper (q + 1) hfit q (by omega), if_pos (by omega)]
  have hmap : (List.range q).map (p_sum lower upper (q + 1)) =
      (List.range q).map (fun j : Nat =>
        sumTotient (lower + (j : Int) * ((upper - lower).tdiv ((q + 1 : Nat) : Int) + 1))
          (lower + (j : Int) * ((upper - lower).tdiv ((q + 1 : Nat) : Int) + 1)
            + (upper - lower).tdiv ((q + 1 : Nat) : Int))) := by
    apply List.map_congr_left
    intro j hj
    rw [List.mem_range] at hj
    rw [p_sum, p_bounds_eq lower upper (q + 1) hfit j (by omega), if_neg (by omega)]
  rw [result, List.range_succ, List.map_append, List.sum_append, hmap]
  simp only [List.map_cons, List.map_nil, List.sum_cons, List.sum_nil, add_zero]
  rw [hlast]

theorem p_bounds_penultimate (lower upper : Int) (q : Nat) (hfit : BoundsFit lower upper (q + 1))
    (hq : 1 ≤ q) :
    (p_bounds lower upper (q + 1) (q - 1)).2 =
      lower + (q : Int) * ((upper - lower).tdiv ((q + 1 : Nat) : Int) + 1) - 1 := by
  obtain ⟨r, rfl⟩ : ∃ r, q = r + 1 := ⟨q - 1, by omega⟩
  rw [p_bounds_eq lower upper (r + 1 + 1) hfit (r + 1 - 1) (by omega), if_neg (by omega)]
  simp only [Nat.add_sub_cancel]
  push_cast
  ring

/-- C16 as stated fails: for `lower = upper = LONG_MAX` and three processes the condition
`(p - 1) * (w + 1) ≤ upper - lower + 1` fails (`2 ≤ 1`), yet no sub-range before the last
reaches past `upper`: the bounds are `[LONG_MAX, LONG_MAX]`, `[LONG_MIN, LONG_MIN]` and
`[LONG_MIN + 1, LONG_MAX]`, the master's additions having overflowed. -/
theorem result_condition_fails_at_LONG_MAX :
    ¬ ((result 9223372036854775807 9223372036854775807 3 =
          sumTotient 9223372036854775807 9223372036854775807 ↔
        (((3 : Nat) : Int) - 1) *
            (((9223372036854775807 : Int) - 9223372036854775807).tdiv ((3 : Nat) : Int) + 1) ≤
          9223372036854775807 - 9223372036854775807 + 1) ∧
      (¬ (((3 : Nat) : Int) - 1) *
            (((9223372036854775807 : Int) - 9223372036854775807).tdiv ((3 : Nat) : Int) + 1) ≤
          9223372036854775807 - 9223372036854775807 + 1 →
        (∃ j : Nat, j < 3 - 1 ∧
          9223372036854775807 < (p_bounds 9223372036854775807 9223372036854775807 3 j).2) ∧
        sumTotient 9223372036854775807 9223372036854775807 <
          result 9223372036854775807 9223372036854775807 3)) := by
  intro h
  have hex := (h.2 (by decide)).1
  revert hex
  decide

/-- C16, amended: for `1 ≤ lower ≤ upper < LONG_MAX` and `p ≥ 1` such that no `long`
overflows (every bound that the master computes fits a `long`, and the sequential sum
and the reduced total are at most `LONG_MAX`), with `w = (upper - lower) / p`, the total
reduced over the `p` scattered sub-ranges equals `sumTotient lower upper` if and only if
`(p - 1) * (w + 1) ≤ upper - lower + 1`; when the condition fails, a sub-range before the
last has an upper bound beyond `upper` and the total is strictly larger than the
sequential sum. -/
theorem result_eq_sumTotient_iff (lower upper : Int) (p : Nat)
    (h1 : 1 ≤ lower) (hle : lower ≤ upper) (_hup : upper < LONG_MAX) (hp : 1 ≤ p)
    (hfit : BoundsFit lower upper p)
    (_hseq : sumTotient lower upper ≤ LONG_MAX) (_htot : result lower upper p ≤ LONG_MAX) :
    (result lower upper p = sumTotient lower upper ↔
      ((p : Int) - 1) * ((upper - lower).tdiv (p : Int) + 1) ≤ upper - lower + 1) ∧
    (¬ ((p : Int) - 1) * ((upper - lower).tdiv (p : Int) + 1) ≤ upper - lower + 1 →
      (∃ j : Nat, j < p - 1 ∧ upper < (p_bounds lower upper p j).2) ∧
      sumTotient lower upper < result lower upper p) := by
  obtain ⟨q, rfl⟩ : ∃ q, p = q + 1 := ⟨p - 1, by omega⟩
  have hw : 0 ≤ (upper - lower).tdiv ((q + 1 : Nat) : Int) :=
    Int.tdiv_nonneg (by omega) (by omega)
  have hres := result_eq_blocks lower upper q hfit
  rw [blocks_sum lower _ hw q] at hres
  have hpen := p_bounds_penultimate lower upper q hfit
  have hcast : (((q + 1 : Nat) : Int) - 1) = (q : Int) := by
    push_cast
    ring
  rw [hcast]
  generalize (upper - lower).tdiv ((q + 1 : Nat) : Int) = w at hw hres hpen ⊢
  have hM : 0 ≤ (q : Int) * (w + 1) := mul_nonneg (Int.natCast_nonneg q) (by omega)
  have hq0 : q = 0 → (q : Int) * (w + 1) = 0 := by
    intro h0
    rw [h0]
    simp
  generalize (q : Int) * (w + 1) = M at hres hpen hM hq0 ⊢
  by_cases hc : M ≤ upper - lower + 1
  · have hsplit := sumTotient_split lower (lower + M - 1) upper (by omega) (by omega)
    have e : lower + M - 1 + 1 = lower + M := by ring
    rw [e] at hsplit
    exact ⟨⟨fun _ => hc, fun _ => by rw [hres, hsplit]⟩, fun hn => absurd hc hn⟩
  · have hz := sumTotient_of_lt (lower + M) upper (by omega)
    have hsplit := sumTotient_split lower upper (lower + M - 1) (by omega) (by omega)
    have hpos := sumTotient_pos (upper + 1) (lower + M - 1) (by omega) (by omega)
    have hlt : sumTotient lower upper < result lower upper (q + 1) := by
      rw [hres, hz, hsplit]
      omega
    have hq1 : 1 ≤ q := by
      by_contra hq
      have := hq0 (by omega)
      omega
    refine ⟨⟨fun heq => absurd heq (ne_of_gt hlt), fun h => absurd h hc⟩, fun _ => ⟨⟨q - 1, ?_, ?_⟩, hlt⟩⟩
    · omega
    · rw [hpen hq1]
      omega

/-- Witness of C16 at `lower = 1`, `upper = 10`, `p = 4`, where the condition holds, and
at `lower = upper = 5`, `p = 3`, where it fails. -/
theorem result_eq_sumTotient_iff_witness :
    ((1 : Int) ≤ 1 ∧ (1 : Int) ≤ 10 ∧ (10 : Int) < LONG_MAX ∧ 1 ≤ 4 ∧ BoundsFit 1 10 4 ∧
      sumTotient 1 10 ≤ LONG_MAX ∧ result 1 10 4 ≤ LONG_MAX ∧
      (result 1 10 4 = sumTotient 1 10 ↔
        (((4 : Nat) : Int) - 1) * (((10 : Int) - 1).tdiv ((4 : Nat) : Int) + 1) ≤ 10 - 1 + 1)) ∧
    (BoundsFit 5 5 3 ∧ result 5 5 3 ≤ LONG_MAX ∧ sumTotient 5 5 < result 5 5 3) :=
  ⟨⟨by decide, by decide, by decide, by decide, by decide, by decide, by decide,
    (result_eq_sumTotient_iff 1 10 4 (by decide) (by decide) (by decide) (by decide)
      (by decide) (by decide) (by decide)).1⟩,
   by decide, by decide,
   ((result_eq_sumTotient_iff 5 5 3 (by decide) (by decide) (by decide) (by decide)
      (by decide) (by decide) (by decide)).2 (by decide)).2⟩

/-- C17 as stated fails: for `lower = upper = LONG_MAX` and `p = 3` (so `w = 0`) cell `2`
is `LONG_MIN`, not `lower + 1*(w+1) = 2^63`, which no `long` holds; and for `lower = -2`,
`upper = LONG_MAX`, `p = 2` the difference `upper - lower` overflows, so that cell `1` is
`-4611686018427387905`, not `lower + w = 4611686018427387902`. -/
theorem all_bounds_overflow :
    ¬ ((all_bounds 9223372036854775807 9223372036854775807 3).getD (2 * 1) 0 =
        9223372036854775807 + ((1 : Nat) : Int) *
          (((9223372036854775807 : Int) - 9223372036854775807).tdiv ((3 : Nat) : Int) + 1)) ∧
    (all_bounds 9223372036854775807 9223372036854775807 3).getD (2 * 1) 0 =
      -9223372036854775808 ∧
    (all_bounds (-2) 9223372036854775807 2).getD (2 * 0 + 1) 0 = -4611686018427387905 ∧
    (-2 : Int) + ((0 : Nat) : Int) *
        (((9223372036854775807 : Int) - (-2)).tdiv ((2 : Nat) : Int) + 1)
      + ((9223372036854775807 : Int) - (-2)).tdiv ((2 : Nat) : Int) = 4611686018427387902 := by
  decide

/-- C17, amended: closed form of the master's bounds when no `long` overflows. For all
`lower`, `upper` and `p ≥ 1` such that the difference `upper - lower` and every cell
computed by the loop fit a `long`, with `w = (upper - lower) / p`: cell `2j` is
`lower + j*(w+1)` for every `j < p`; cell `2j+1` is `lower + j*(w+1) + w` for every
`j < p - 1`, so that such a sub-range spans `w + 1` integers (it holds `w + 1` of them,
none when `w + 1` is negative, which needs `upper < lower`); every cell `2j` with
`0 < j < p` is one more than cell `2j-1`; and cell `2p-1` is `upper`. -/
theorem all_bounds_closed_form (lower upper : Int) (p : Nat) (hp : 1 ≤ p)
    (hfit : BoundsFit lower upper p) :
    (∀ j : Nat, j < p →
      (all_bounds lower upper p).getD (2 * j) 0 =
        lower + (j : Int) * ((upper - lower).tdiv (p : Int) + 1)) ∧
    (∀ j : Nat, j < p - 1 →
      (all_bounds lower upper p).getD (2 * j + 1) 0 =
        lower + (j : Int) * ((upper - lower).tdiv (p : Int) + 1)
          + (upper - lower).tdiv (p : Int)) ∧
    (∀ j : Nat, j < p - 1 →
      (p_bounds lower upper p j).2 - (p_bounds lower upper p j).1 + 1 =
        (upper - lower).tdiv (p : Int) + 1 ∧
      (subRange (p_bounds lower upper p j)).card =
        ((upper - lower).tdiv (p : Int) + 1).toNat) ∧
    (∀ j : Nat, 0 < j → j < p →
      (all_bounds lower upper p).getD (2 * j) 0 =
        (all_bounds lower upper p).getD (2 * j - 1) 0 + 1) ∧
    (all_bounds lower upper p).getD (2 * p - 1) 0 = upper := by
  have hlo : ∀ j : Nat, j < p →
      (all_bounds lower upper p).getD (2 * j) 0 =
        lower + (j : Int) * ((upper - lower).tdiv (p : Int) + 1) := by
    intro j hj
    have h := p_bounds_eq lower upper p hfit j hj
    rw [p_bounds] at h
    exact congrArg Prod.fst h
  have hup : ∀ j : Nat, j < p - 1 →
      (all_bounds lower upper p).getD (2 * j + 1) 0 =
        lower + (j : Int) * ((upper - lower).tdiv (p : Int) + 1)
          + (upper - lower).tdiv (p : Int) := by
    intro j hj
    have h := p_bounds_eq lower upper p hfit j (by omega)
    rw [p_bounds, if_neg (by omega)] at h
    exact congrArg Prod.snd h
  refine ⟨hlo, hup, ?_, ?_, ?_⟩
  · intro j hj
    rw [p_bounds_eq lower upper p hfit j (by omega), if_neg (by omega)]
    refine ⟨by ring, ?_⟩
    rw [subRange, Int.card_Icc]
    congr 1
    ring
  · intro j hj0 hj
    obtain ⟨k, rfl⟩ : ∃ k, j = k + 1 := ⟨j - 1, by omega⟩
    have hidx : 2 * (k + 1) - 1 = 2 * k + 1 := by omega
    rw [hidx, hlo (k + 1) hj, hup k (by omega)]
    push_cast
    ring
  · rw [all_bounds_getD lower upper p hp hfit (2 * p - 1) (by omega), if_pos rfl]

/-- Witness of C17 (amended) at `lower = 1`, `upper = 10`, `p = 4`. -/
theorem all_bounds_closed_form_witness :
    1 ≤ 4 ∧ BoundsFit 1 10 4 ∧ (all_bounds 1 10 4).getD (2 * 4 - 1) 0 = 10 ∧
    (all_bounds 1 10 4).getD (2 * 1 + 1) 0 =
      1 + ((1 : Nat) : Int) * (((10 : Int) - 1).tdiv ((4 : Nat) : Int) + 1)
        + ((10 : Int) - 1).tdiv ((4 : Nat) : Int) :=
  ⟨by decide, by decide, (all_bounds_closed_form 1 10 4 (by decide) (by decide)).2.2.2.2,
    (all_bounds_closed_form 1 10 4 (by decide) (by decide)).2.1 1 (by decide)⟩

/-! ## The thread-based variant -/

theorem iterations_eq (a b : Int) :
    Omp.iterations a b = if a < b then a :: Omp.iterations (a + 1) b else [] := by
  rw [Omp.iterations]

theorem foldl_add_eq (g : Int → Int) (l : List Int) :
    ∀ a : Int, l.foldl (fun s i => s + g i) a = a + (l.map g).sum := by
  induction l with
  | nil =>
    intro a
    simp
  | cons b l ih =>
    intro a
    rw [List.foldl_cons, ih, List.map_cons, List.sum_cons]
    ring

theorem foldl_count_eq (c : Int → Prop) [DecidablePred c] (l : List Int) (a : Int) :
    l.foldl (fun length i => if c i then length + 1 else length) a =
      a + (l.map (fun i => if c i then (1 : Int) else 0)).sum := by
  rw [← foldl_add_eq]
  congr 1
  funext length i
  split <;> simp

theorem list_range_sum (f : Nat → Int) (n : Nat) :
    ((List.range n).map f).sum = ∑ id in Finset.range n, f id := by
  induction n with
  | zero => simp
  | succ n ih =>
    rw [List.range_succ, List.map_append, List.sum_append, ih, Finset.sum_range_succ]
    simp

theorem chunks_sum (t : Nat) (owner : Int → Nat) (g : Int → Int) (l : List Int)
    (h : ∀ i ∈ l, owner i < t) :
    ((List.range t).map (fun id => ((Omp.chunk owner id l).map g).sum)).sum = (l.map g).sum := by
  rw [list_range_sum]
  induction l with
  | nil => simp [Omp.chunk]
  | cons a l ih =>
    have hstep : ∀ id : Nat, ((Omp.chunk owner id (a :: l)).map g).sum =
        (if id = owner a then g a else 0) + ((Omp.chunk owner id l).map g).sum := by
      intro id
      unfold Omp.chunk
      by_cases ho : owner a = id
      · rw [List.filter_cons_of_pos (by simpa using ho), if_pos ho.symm, List.map_cons,
          List.sum_cons]
      · rw [List.filter_cons_of_neg (by simpa using ho), if_neg (fun hc => ho hc.symm),
          zero_add]
    simp only [hstep]
    rw [Finset.sum_add_distrib, ih (fun i hi => h i (List.mem_cons_of_mem a hi)),
      Finset.sum_ite_eq', if_pos (Finset.mem_range.mpr (h a (List.mem_cons_self a l))),
      List.map_cons, List.sum_cons]


theorem eulerLoop_eq_iterations (n i length : Int) :
    eulerLoop n i length =
      length + ((Omp.iterations i n).map
        (fun j => if relprime n j ≠ 0 then (1 : Int) else 0)).sum := by
  induction i, length using eulerLoop.induct n with
  | case1 i length h ih =>
    simp only [dite_eq_ite] at ih
    rw [eulerLoop_eq, if_pos h, ih, iterations_eq i n, if_pos h, List.map_cons, List.sum_cons]
    split <;> ring
  | case2 i length h =>
    rw [eulerLoop_eq, if_neg h, iterations_eq i n, if_neg h]
    simp

theorem sumTotientLoop_eq_iterations (upper i sum : Int) :
    sumTotientLoop upper i sum = sum + ((Omp.iterations i (upper + 1)).map euler).sum := by
  induction i, sum using sumTotientLoop.induct upper with
  | case1 i sum h ih =>
    rw [sumTotientLoop_eq, if_pos h, ih, iterations_eq i (upper + 1), if_pos (by omega),
      List.map_cons, List.sum_cons]
    ring
  | case2 i sum h =>
    rw [sumTotientLoop_eq, if_neg h, iterations_eq i (upper + 1), if_neg (by omega)]
    simp

theorem omp_euler_eq (n : Int) (t : Nat) (owner : Int → Nat) (h : ∀ i, owner i < t) :
    Omp.euler n t owner = euler n := by
  unfold Omp.euler
  simp only [foldl_count_eq, zero_add]
  rw [chunks_sum t owner _ _ (fun i _ => h i), euler, eulerLoop_eq_iterations, zero_add]

theorem toInt_of_fits (x : Int) (hlo : -2147483648 ≤ x) (hhi : x ≤ 2147483647) :
    Omp.toInt x = x := by
  unfold Omp.toInt
  omega

theorem omp_sumTotient_eq (lower upper : Int) (t : Nat) (owner : Int → Nat)
    (inner : Int → Int → Nat) (hlo : -2147483648 ≤ lower) (hhi : lower ≤ 2147483647)
    (howner : ∀ i, owner i < t) (hinner : ∀ m i, inner m i < t) :
    Omp.sumTotient lower upper t owner inner = sumTotient lower upper := by
  unfold Omp.sumTotient
  have hin : (fun (sum : Int) (i : Int) => sum + Omp.euler i t (inner i)) =
      (fun (sum : Int) (i : Int) => sum + euler i) := by
    funext sum i
    rw [omp_euler_eq i t (inner i) (hinner i)]
  rw [hin]
  simp only [foldl_add_eq, zero_add]
  rw [chunks_sum t owner _ _ (fun i _ => howner i), toInt_of_fits lower hlo hhi, sumTotient,
    sumTotientLoop_eq_iterations, zero_add]

end TotientRange
